import Mathlib

/-!
Verification of the coinswap repository's specification against its code.

The crate root (`src/lib.rs`) only declares modules; the bodies of the
wallet, taker, maker and protocol modules are not part of the sources at
hand, so the operations the claims speak about are modelled from the
specification (each such definition carries a doc comment starting with
`Modelled from the spec:`).  The module list of `src/lib.rs` itself is
embedded directly from the source.
-/

namespace Coinswap

/- ## Wallet data model -/

/-- Modelled from the spec: a wallet UTXO as used by `wallet::coin_select`
(the wallet module body is missing from the sources).  `addr` identifies the
address holding the output; `txid`/`vout` identify the outpoint. -/
structure Utxo where
  txid : Nat
  vout : Nat
  addr : Nat
  amount : Nat
deriving DecidableEq

/-- Total amount of a list of UTXOs, in sats. -/
def sumAmounts (us : List Utxo) : Nat :=
  (us.map Utxo.amount).sum

/-- Fuel-driven grouping of a UTXO list by address: the first group holds
every UTXO sharing the first UTXO's address, and so on.  The fuel is the
list length, which always suffices. -/
def groupByAddrAux : Nat → List Utxo → List (List Utxo)
  | _, [] => []
  | 0, _ :: _ => []
  | fuel + 1, u :: rest =>
    (u :: rest.filter (fun v => v.addr == u.addr)) ::
      groupByAddrAux fuel (rest.filter (fun v => !(v.addr == u.addr)))

/-- Modelled from the spec: the address-grouping pass of the wallet's coin
selection.  UTXOs sharing an address form one indivisible group. -/
def groupByAddr (us : List Utxo) : List (List Utxo) :=
  groupByAddrAux us.length us

/-- Among the address groups whose total covers `required`, pick one of
minimal total (privacy grouping still prefers the cheapest adequate
group). -/
def pickMinCovering (required : Nat) : List (List Utxo) → Option (List Utxo)
  | [] => none
  | g :: gs =>
    match pickMinCovering required gs with
    | none => if required ≤ sumAmounts g then some g else none
    | some best =>
      if required ≤ sumAmounts g && sumAmounts g < sumAmounts best then some g
      else some best

/-- Accumulate whole address groups, in order, until `required` is covered;
`none` when the groups run out first. -/
def accumulateGroups (required : Nat) : List (List Utxo) → Option (List (List Utxo))
  | [] => if required = 0 then some [] else none
  | g :: gs =>
    if required ≤ sumAmounts g then some [g]
    else (accumulateGroups (required - sumAmounts g) gs).map (fun sel => g :: sel)

/-- Concatenation of a list of groups back into a flat UTXO list. -/
def concatAll (gs : List (List Utxo)) : List Utxo :=
  gs.foldr (fun g acc => g ++ acc) []

/-- Modelled from the spec: `wallet.coin_select` (wallet module body missing).
Per §9 of the spec the selection exhibits address grouping: UTXOs sharing an
address are selected as a block.  A single group of minimal total covering the
requirement is preferred; otherwise whole groups are accumulated until the
requirement is covered.  Returns `none` when the wallet cannot produce the
required amount. -/
def coin_select (us : List Utxo) (required : Nat) : Option (List Utxo) :=
  match pickMinCovering required (groupByAddr us) with
  | some g => some g
  | none => (accumulateGroups required (groupByAddr us)).map concatAll

/-- Modelled from the spec: the estimated virtual size used to turn a fee
rate into a transaction fee (the wallet module body is missing). -/
def TX_VSIZE : Nat := 250

/-- Fee of one transaction at the given fee rate (sats per vbyte). -/
def txFee (feeRate : Nat) : Nat := feeRate * TX_VSIZE

/-- Modelled from the spec: `utill::MIN_FEE_RATE` (the `utill` module body is
missing); the minimum relay-safe fee rate used by the tests. -/
def MIN_FEE_RATE : Nat := 2

/-- Error kinds of the wallet operations, per §4.A of the spec. -/
inductive WalletError
  | InsufficientFunds
  | InvalidScript
deriving DecidableEq

/-- Modelled from the spec: `wallet.create_funding_txes_regular_swaps`
restricted to its coin selection obligation (§4.A failure modes): the wallet
must produce `amount` plus the fee at the requested fee rate, failing with
`InsufficientFunds` otherwise. -/
def create_funding_txes (us : List Utxo) (amount feeRate : Nat) :
    Except WalletError (List Utxo) :=
  match coin_select us (amount + txFee feeRate) with
  | some sel => Except.ok sel
  | none => Except.error WalletError.InsufficientFunds

/- ## Transactions -/

/-- An outpoint: reference to the output being spent. -/
structure OutPoint where
  txid : Nat
  vout : Nat
deriving DecidableEq

/-- A transaction input; `witnessData` carries the witness stack items. -/
structure TxIn where
  prevout : OutPoint
  nSequence : Nat
  witnessData : List (List Nat)
deriving DecidableEq

/-- A transaction output: a script pubkey (as bytes) and a value in sats. -/
structure TxOut where
  spk : List Nat
  value : Nat
deriving DecidableEq

/-- A transaction. -/
structure Tx where
  version : Nat
  inputs : List TxIn
  outputs : List TxOut
  lockTime : Nat
deriving DecidableEq

/-- Total value of a transaction's outputs. -/
def outputsTotal (tx : Tx) : Nat :=
  (tx.outputs.map TxOut.value).sum

/-- Modelled from the spec: `wallet.spend_from_wallet` (wallet module body
missing).  Spends the given UTXOs to the destination outputs, returning
`InsufficientFunds` when the selected coins do not cover the outputs plus the
fee; otherwise builds the transaction with a change output back to
`changeAddr` when change is nonzero. -/
def spend_from_wallet (feeRate : Nat) (outputs : List (Nat × Nat))
    (changeAddr : Nat) (sel : List Utxo) : Except WalletError Tx :=
  let outTotal := (outputs.map Prod.snd).sum
  if sumAmounts sel < outTotal + txFee feeRate then
    Except.error WalletError.InsufficientFunds
  else
    let change := sumAmounts sel - outTotal - txFee feeRate
    Except.ok
      { version := 2
        inputs := sel.map (fun u => ⟨⟨u.txid, u.vout⟩, 4294967295, []⟩)
        outputs :=
          outputs.map (fun o => ⟨[118, o.1 % 256], o.2⟩) ++
            (if change = 0 then [] else [⟨[118, changeAddr % 256], change⟩])
        lockTime := 0 }

/-- A transaction is valid for broadcast against a wallet when it has at
least one input, every input spends an outpoint of a wallet UTXO, and the
outputs do not exceed the value of the wallet UTXOs being spent. -/
def txValidForBroadcast (wallet : List Utxo) (tx : Tx) : Prop :=
  tx.inputs ≠ [] ∧
  (∀ i ∈ tx.inputs, ∃ u ∈ wallet, u.txid = i.prevout.txid ∧ u.vout = i.prevout.vout) ∧
  outputsTotal tx ≤ sumAmounts wallet

/- ## Crate root (`src/lib.rs`) -/

/-- From `src/src/lib.rs`: the modules the crate root declares and compiles
(`pub mod error; pub mod maker; pub mod market; pub mod protocol;
pub mod scripts; pub mod taker; mod utill; pub mod wallet;`). -/
def crateModules : List String :=
  ["error", "maker", "market", "protocol", "scripts", "taker", "utill", "wallet"]

/-- From `src/src/lib.rs`: module declarations present only as commented-out
code ("Diasable watchtower for now. Handle contract watching individually
for maker and Taker." followed by `//pub mod watchtower;`). -/
def disabledCrateModules : List String :=
  ["watchtower"]

/- ## Timelocks -/

/-- Modelled from the spec: the safety margin between adjacent hop timelocks
(§3 invariant 1; §9 suggests 20 blocks). -/
def SAFETY_MARGIN : Nat := 20

/-- Modelled from the spec: the Taker's descending timelock schedule of §4.E
Phase 1, `timelock_i = base_locktime + (N - i) * hop_locktime_step`. -/
def timelockSchedule (base step n i : Nat) : Nat :=
  base + (n - i) * step

/-- Modelled from the spec: the check every Maker runs between its incoming
and outgoing contract before signing (§3 invariant 1, stated there as
enforced inbound-vs-outbound at every Maker): the incoming (sender-side)
timelock must strictly exceed the outgoing (receiver-side) timelock plus the
safety margin. -/
def maker_timelock_check (incoming outgoing : Nat) : Bool :=
  decide (outgoing + SAFETY_MARGIN < incoming)

/- ## Contract Builder (§4.A) -/

/-- A minimal push: length byte followed by the data bytes. -/
def pushData (bs : List Nat) : List Nat :=
  bs.length :: bs

/-- Little-endian script-number encoding of a timelock (bounded to 3 bytes,
enough for any CSV block count). -/
def scriptNum (n : Nat) : List Nat :=
  if n < 256 then [n]
  else if n < 65536 then [n % 256, n / 256]
  else [n % 256, n / 256 % 256, n / 65536 % 256]

/-- Modelled from the spec: `build_contract_script` (§4.A), producing the
HTLC template of §3:
`IF <timelock> CSV DROP <S_pub> CHECKSIG ELSE HASH160 <H> EQUALVERIFY
<R_pub> CHECKSIG ENDIF`.  Opcode bytes follow Bitcoin script. -/
def build_contract_script (spub rpub hashVal : List Nat) (timelock : Nat) : List Nat :=
  [99] ++ pushData (scriptNum timelock) ++ [178, 117] ++ pushData spub ++
    [172, 103, 169] ++ pushData hashVal ++ [136] ++ pushData rpub ++ [172, 104]

/-- The 2-of-2 multisig script pubkey of a hop's funding output. -/
def multisig2of2 (spub rpub : List Nat) : List Nat :=
  [82] ++ pushData spub ++ pushData rpub ++ [82, 174]

/-- Modelled from the spec: `build_funding_tx` (§4.A): pays `amount` into the
2-of-2 multisig of sender and receiver from the given wallet inputs, with a
change output when change is nonzero. -/
def build_funding_tx (walletInputs : List Utxo) (spub rpub : List Nat)
    (amount feeRate : Nat) : Tx :=
  let change := sumAmounts walletInputs - amount - txFee feeRate
  { version := 2
    inputs := walletInputs.map (fun u => ⟨⟨u.txid, u.vout⟩, 4294967295, []⟩)
    outputs :=
      ⟨multisig2of2 spub rpub, amount⟩ ::
        (if change = 0 then [] else [⟨[81], change⟩])
    lockTime := 0 }

/-- Modelled from the spec: `build_contract_tx` (§4.A): spends the funding
outpoint to the contract script; `nLockTime = 0`, the CSV inside the script
governs the timelock. -/
def build_contract_tx (funding : OutPoint) (contractScript : List Nat)
    (value : Nat) : Tx :=
  { version := 2
    inputs := [⟨funding, 4294967295, []⟩]
    outputs := [⟨contractScript, value⟩]
    lockTime := 0 }

/-- Modelled from the spec: `build_sweep_tx` (§4.A), the hash-path spend of a
contract output: the preimage is supplied in the witness. -/
def build_sweep_tx (contract : OutPoint) (preimage walletSpk : List Nat)
    (value feeRate : Nat) : Tx :=
  { version := 2
    inputs := [⟨contract, 4294967295, [preimage, [1]]⟩]
    outputs := [⟨walletSpk, value - txFee feeRate⟩]
    lockTime := 0 }

/-- Modelled from the spec: `build_timeout_tx` (§4.A), the timelock-path
spend of a contract output: sets `nSequence = timelock` to satisfy the CSV
branch. -/
def build_timeout_tx (contract : OutPoint) (walletSpk : List Nat)
    (value feeRate timelock : Nat) : Tx :=
  { version := 2
    inputs := [⟨contract, timelock, [[]]⟩]
    outputs := [⟨walletSpk, value - txFee feeRate⟩]
    lockTime := 0 }

/-- Big-endian 4-byte encoding of a 32-bit value. -/
def natBE4 (n : Nat) : List Nat :=
  [n / 16777216 % 256, n / 65536 % 256, n / 256 % 256, n % 256]

/-- Little-endian 4-byte encoding of a 32-bit value. -/
def natLE4 (n : Nat) : List Nat :=
  [n % 256, n / 256 % 256, n / 65536 % 256, n / 16777216 % 256]

/-- Byte serialization of one input. -/
def txInBytes (i : TxIn) : List Nat :=
  natLE4 i.prevout.txid ++ natLE4 i.prevout.vout ++ natLE4 i.nSequence ++
    [i.witnessData.length] ++ (i.witnessData.map pushData).foldr (· ++ ·) []

/-- Byte serialization of one output. -/
def txOutBytes (o : TxOut) : List Nat :=
  natLE4 o.value ++ pushData o.spk

/-- Deterministic byte serialization of a transaction; two transactions are
byte-identical exactly when their serializations agree. -/
def txBytes (tx : Tx) : List Nat :=
  natLE4 tx.version ++ [tx.inputs.length] ++
    (tx.inputs.map txInBytes).foldr (· ++ ·) [] ++ [tx.outputs.length] ++
    (tx.outputs.map txOutBytes).foldr (· ++ ·) [] ++ natLE4 tx.lockTime

/- ## Message Codec (§4.B) -/

/-- Fuel-driven base-128 varint encoder (LEB128 little-endian groups, with a
continuation bit on every group but the last).  Fuel `n` always suffices for
value `n`. -/
def serVarintAux : Nat → Nat → List Nat
  | 0, n => [n % 128]
  | fuel + 1, n => if n < 128 then [n] else (n % 128 + 128) :: serVarintAux fuel (n / 128)

/-- Canonical varint encoding of a natural number. -/
def serVarint (n : Nat) : List Nat :=
  serVarintAux n n

/-- Varint decoder; rejects non-canonical encodings (a continuation group
followed by the value zero) and non-byte values. -/
def parseVarint : List Nat → Option (Nat × List Nat)
  | [] => none
  | b :: rest =>
    if b < 128 then some (b, rest)
    else if b < 256 then
      (parseVarint rest).bind (fun p =>
        if p.1 = 0 then none else some (b - 128 + 128 * p.1, p.2))
    else none

/-- Length-prefixed bytestring: varint length, then the bytes. -/
def serBytes (bs : List Nat) : List Nat :=
  serVarint bs.length ++ bs

/-- Split off exactly `n` leading bytes. -/
def readN (n : Nat) (bs : List Nat) : Option (List Nat × List Nat) :=
  if n ≤ bs.length then some (bs.take n, bs.drop n) else none

/-- Decode one length-prefixed bytestring. -/
def parseBytesF (bs : List Nat) : Option (List Nat × List Nat) :=
  (parseVarint bs).bind (fun p => readN p.1 p.2)

/-- Varint count followed by that many length-prefixed bytestrings. -/
def serBytesList (xs : List (List Nat)) : List Nat :=
  serVarint xs.length ++ (xs.map serBytes).foldr (· ++ ·) []

/-- Decode exactly `n` length-prefixed bytestrings. -/
def parseNBytes : Nat → List Nat → Option (List (List Nat) × List Nat)
  | 0, bs => some ([], bs)
  | n + 1, bs =>
    (parseBytesF bs).bind (fun p =>
      (parseNBytes n p.2).map (fun q => (p.1 :: q.1, q.2)))

/-- Decode a counted list of bytestrings. -/
def parseBytesList (bs : List Nat) : Option (List (List Nat) × List Nat) :=
  (parseVarint bs).bind (fun p => parseNBytes p.1 p.2)

/-- Six varint fields in fixed order (the `Offer` fee-policy tuple of §4.D). -/
def ser6 (a b c d e f : Nat) : List Nat :=
  serVarint a ++ serVarint b ++ serVarint c ++ serVarint d ++ serVarint e ++ serVarint f

/-- Decode six varint fields in fixed order. -/
def parse6 (bs : List Nat) : Option ((Nat × Nat × Nat × Nat × Nat × Nat) × List Nat) :=
  (parseVarint bs).bind (fun p1 =>
    (parseVarint p1.2).bind (fun p2 =>
      (parseVarint p2.2).bind (fun p3 =>
        (parseVarint p3.2).bind (fun p4 =>
          (parseVarint p4.2).bind (fun p5 =>
            (parseVarint p5.2).bind (fun p6 =>
              some ((p1.1, p2.1, p3.1, p4.1, p5.1, p6.1), p6.2)))))))

/-- Modelled from the spec: the wire messages of the protocol (§4.B; the
`protocol` module body is missing).  Taker→Maker: `TakerHello`, `GiveOffer`,
`ReqContractSigsForSender`, `ProofOfFunding`,
`ReqContractSigsForRecvrAndSender`, `ReqContractSigsForRecvr`,
`HashPreimage`, `PrivKeyHandover`; Maker→Taker: `MakerHello`, `Offer`,
`ContractSigsForSender`, `ContractSigsAsRecvrAndSender`,
`ContractSigsForRecvr`, `PrivKeyHandover`.  Transactions and signatures
travel as bytestrings; `Offer` carries the fee-policy tuple of §4.D. -/
inductive Message
  | TakerHello (version : Nat)
  | MakerHello (version : Nat)
  | GiveOffer
  | Offer (baseFee relativeFeePpb minSize maxSize refundLocktime requiredConfirmations : Nat)
  | ReqContractSigsForSender (contractTxs : List (List Nat))
  | ContractSigsForSender (sigs : List (List Nat))
  | ProofOfFunding (fundingTxs : List (List Nat))
  | ReqContractSigsForRecvrAndSender (contractTxs : List (List Nat))
  | ContractSigsAsRecvrAndSender (sigs : List (List Nat))
  | ReqContractSigsForRecvr (contractTxs : List (List Nat))
  | ContractSigsForRecvr (sigs : List (List Nat))
  | HashPreimage (preimage : List Nat)
  | PrivKeyHandover (privkeys : List (List Nat))
deriving DecidableEq

/-- Modelled from the spec: deterministic payload serialization (tagged
union, fixed field order, length-prefixed bytestrings, varint counts). -/
def serializeBody : Message → List Nat
  | Message.TakerHello v => 0 :: serVarint v
  | Message.MakerHello v => 1 :: serVarint v
  | Message.GiveOffer => [2]
  | Message.Offer a b c d e f => 3 :: ser6 a b c d e f
  | Message.ReqContractSigsForSender xs => 4 :: serBytesList xs
  | Message.ContractSigsForSender xs => 5 :: serBytesList xs
  | Message.ProofOfFunding xs => 6 :: serBytesList xs
  | Message.ReqContractSigsForRecvrAndSender xs => 7 :: serBytesList xs
  | Message.ContractSigsAsRecvrAndSender xs => 8 :: serBytesList xs
  | Message.ReqContractSigsForRecvr xs => 9 :: serBytesList xs
  | Message.ContractSigsForRecvr xs => 10 :: serBytesList xs
  | Message.HashPreimage p => 11 :: serBytes p
  | Message.PrivKeyHandover xs => 12 :: serBytesList xs

/-- Accept a decoded field bundle only when the payload is fully consumed. -/
def withEnd {α : Type} (f : α → Message) : Option (α × List Nat) → Option Message
  | some (a, []) => some (f a)
  | _ => none

/-- Modelled from the spec: payload parser, the inverse dispatch of
`serializeBody` over the tag byte; parsing failure is a protocol error
(`none`). -/
def parseBody : List Nat → Option Message
  | [] => none
  | t :: rest =>
    if t = 0 then withEnd Message.TakerHello (parseVarint rest)
    else if t = 1 then withEnd Message.MakerHello (parseVarint rest)
    else if t = 2 then (if rest = [] then some Message.GiveOffer else none)
    else if t = 3 then
      withEnd (fun p => Message.Offer p.1 p.2.1 p.2.2.1 p.2.2.2.1 p.2.2.2.2.1 p.2.2.2.2.2)
        (parse6 rest)
    else if t = 4 then withEnd Message.ReqContractSigsForSender (parseBytesList rest)
    else if t = 5 then withEnd Message.ContractSigsForSender (parseBytesList rest)
    else if t = 6 then withEnd Message.ProofOfFunding (parseBytesList rest)
    else if t = 7 then withEnd Message.ReqContractSigsForRecvrAndSender (parseBytesList rest)
    else if t = 8 then withEnd Message.ContractSigsAsRecvrAndSender (parseBytesList rest)
    else if t = 9 then withEnd Message.ReqContractSigsForRecvr (parseBytesList rest)
    else if t = 10 then withEnd Message.ContractSigsForRecvr (parseBytesList rest)
    else if t = 11 then withEnd Message.HashPreimage (parseBytesF rest)
    else if t = 12 then withEnd Message.PrivKeyHandover (parseBytesList rest)
    else none

/-- Read a 4-byte big-endian length prefix, validating each byte. -/
def readBE4 : List Nat → Option (Nat × List Nat)
  | b0 :: b1 :: b2 :: b3 :: rest =>
    if b0 < 256 && b1 < 256 && b2 < 256 && b3 < 256 then
      some (((b0 * 256 + b1) * 256 + b2) * 256 + b3, rest)
    else none
  | _ => none

/-- Modelled from the spec: frame serialization — 4-byte big-endian length
prefix followed by the payload (§4.B). -/
def serializeMsg (m : Message) : List Nat :=
  natBE4 (serializeBody m).length ++ serializeBody m

/-- Modelled from the spec: frame parsing — the length prefix must match the
payload length exactly, and the payload must parse with nothing left over. -/
def parseMsg (bs : List Nat) : Option Message :=
  (readBE4 bs).bind (fun p => if p.2.length = p.1 then parseBody p.2 else none)

/- ## Taker Orchestrator (§4.E) -/

/-- Maker behaviors exercised by the integration tests (§9: "Dynamic
dispatch over Maker behaviors used in tests"). -/
inductive MakerBehavior
  | Normal
  | CloseAtContractSigsForSender
  | CloseAtContractSigsForRecvr
deriving DecidableEq

/-- Swap parameters, as in `taker::SwapParams` (used by
`tests/abort3_case2.rs`; the `taker` module body is missing). -/
structure SwapParams where
  send_amount : Nat
  maker_count : Nat
  tx_count : Nat
  required_confirms : Nat
  fee_rate : Nat
deriving DecidableEq

/-- A Maker on the route: its address, test behavior, quoted fee and the
timelock of its outgoing contract. -/
structure MakerInfo where
  address : Nat
  behavior : MakerBehavior
  fee : Nat
  outgoing_timelock : Nat
deriving DecidableEq

/-- Observable actions of the Taker during a swap. -/
inductive TakerEvent
  | BroadcastFunding (maker : Nat)
  | WaitUntilHeight (height : Nat)
  | TimelockSweep (maker : Nat) (height : Nat)
  | CooperativeSweep (maker : Nat)
  | Reroute (maker : Nat)
deriving DecidableEq

/-- Error kinds of §7 that `send_coinswap` could propagate. -/
inductive SwapError
  | ProtocolError
  | Timeout
  | PeerClosed
  | InsufficientFunds
  | ChainError
deriving DecidableEq

/-- The outcome of one `send_coinswap` run.  `swept` records the amount the
Taker's final sweep transaction — the cooperative close of the last hop or
the timelock-path recovery of the hop that failed — actually returned to
the wallet; nothing else puts funds back. -/
structure SwapOutcome where
  result : Except SwapError Unit
  bad_makers : List Nat
  events : List TakerEvent
  maker_fees_paid : Nat
  mining_fees_paid : Nat
  swept : Nat

/-- Modelled from the spec: the Taker's per-hop drive of §4.E with the abort
taxonomy (the `taker` module body is missing).  `amt` is the amount in
flight at the current hop: the Taker's funding transaction locks
`send_amount` into the first 2-of-2 output, and every Maker forwards its
incoming amount minus its fee (§3 invariant 2; §4.D: outgoing amount =
incoming amount − maker_fee).  A Normal maker's hop is funded and closed
cooperatively, costing that maker's fee plus one funding mining fee.
`CloseAtContractSigsForSender` (AbortCase1) leaves no on-chain state: the
maker is banned and the Taker re-routes.  `CloseAtContractSigsForRecvr`
(AbortCase2) happens after funding broadcast: the maker is banned, the
Taker waits until that maker's outgoing timelock and reclaims the in-flight
contract output via the timelock-path sweep (§4.E Phase 5), paying the
funding and sweep mining fees; recovery completes the run without error.
When every hop succeeds, the Taker sweeps the last hop's output — the
in-flight amount left after all maker fees — via the cooperative close of
§4.E Phase 4. -/
def runHops (params : SwapParams) : Nat → List MakerInfo → SwapOutcome
  | amt, [] =>
    { result := Except.ok ()
      bad_makers := []
      events := []
      maker_fees_paid := 0
      mining_fees_paid := 0
      swept := amt }
  | amt, m :: rest =>
    match m.behavior with
    | MakerBehavior.Normal =>
      let r := runHops params (amt - m.fee) rest
      { result := r.result
        bad_makers := r.bad_makers
        events :=
          TakerEvent.BroadcastFunding m.address ::
            TakerEvent.CooperativeSweep m.address :: r.events
        maker_fees_paid := m.fee + r.maker_fees_paid
        mining_fees_paid := txFee params.fee_rate + r.mining_fees_paid
        swept := r.swept }
    | MakerBehavior.CloseAtContractSigsForSender =>
      let r := runHops params amt rest
      { result := r.result
        bad_makers := m.address :: r.bad_makers
        events := TakerEvent.Reroute m.address :: r.events
        maker_fees_paid := r.maker_fees_paid
        mining_fees_paid := r.mining_fees_paid
        swept := r.swept }
    | MakerBehavior.CloseAtContractSigsForRecvr =>
      { result := Except.ok ()
        bad_makers := [m.address]
        events :=
          [TakerEvent.BroadcastFunding m.address,
            TakerEvent.WaitUntilHeight m.outgoing_timelock,
            TakerEvent.TimelockSweep m.address m.outgoing_timelock]
        maker_fees_paid := 0
        mining_fees_paid := txFee params.fee_rate + txFee params.fee_rate
        swept := amt }

/-- Modelled from the spec: `taker.send_coinswap` as the sequential drive of
the route (§4.E), starting with `send_amount` in flight at the first hop. -/
def send_coinswap (params : SwapParams) (makers : List MakerInfo) : SwapOutcome :=
  runHops params params.send_amount makers

/-- Sum of the quoted fees of every Maker on the route. -/
def totalMakerFees (ms : List MakerInfo) : Nat :=
  (ms.map MakerInfo.fee).sum

/-- Upper bound on the mining fees a swap can spend: two transactions
(funding and sweep) per hop. -/
def miningFeeBudget (params : SwapParams) (ms : List MakerInfo) : Nat :=
  ms.length * (2 * txFee params.fee_rate)

/-- Number of peers on the route that fail (disconnect or violate the
protocol). -/
def countFailedPeers (ms : List MakerInfo) : Nat :=
  (ms.filter (fun m => decide (m.behavior ≠ MakerBehavior.Normal))).length

/-- Modelled from the spec: the Taker's wallet balance after a swap (§8
invariant 1).  Broadcasting the funding transaction moves `send_amount` out
of the wallet into the first hop's 2-of-2 output and the run's mining fees
are spent; the only inflow is whatever the run's final sweep actually
returned (`SwapOutcome.swept`).  Whether the locked principal comes back is
decided by the sweep semantics of `runHops`, not by this definition. -/
def post_swap_balance (pre : Int) (params : SwapParams) (ms : List MakerInfo) : Int :=
  pre - (params.send_amount : Int) -
    ((send_coinswap params ms).mining_fees_paid : Int) +
    ((send_coinswap params ms).swept : Int)

/- ## The concrete wallet of `tests/address_grouping.rs` -/

/-- The 16-UTXO wallet of `test_address_grouping_behavior`: address A (0)
holds 80M, 90M, 70M, 60M sats; address B (1) holds 30M, 25M, 35M, 20M, 40M;
address C (2) holds 15M, 18M, 12M, 22M, 16M, 14M; address D (3) holds a lone
220M-sat UTXO. -/
def groupingTestWallet : List Coinswap.Utxo :=
  [⟨1, 0, 0, 80000000⟩, ⟨2, 0, 0, 90000000⟩, ⟨3, 0, 0, 70000000⟩, ⟨4, 0, 0, 60000000⟩,
   ⟨5, 0, 1, 30000000⟩, ⟨6, 0, 1, 25000000⟩, ⟨7, 0, 1, 35000000⟩, ⟨8, 0, 1, 20000000⟩,
   ⟨9, 0, 1, 40000000⟩,
   ⟨10, 0, 2, 15000000⟩, ⟨11, 0, 2, 18000000⟩, ⟨12, 0, 2, 12000000⟩, ⟨13, 0, 2, 22000000⟩,
   ⟨14, 0, 2, 16000000⟩, ⟨15, 0, 2, 14000000⟩,
   ⟨16, 0, 3, 220000000⟩]

/-- The selection the model returns on `groupingTestWallet` for the 50M-sat
target: all six UTXOs of address C. -/
def groupingSelection : List Coinswap.Utxo :=
  [⟨10, 0, 2, 15000000⟩, ⟨11, 0, 2, 18000000⟩, ⟨12, 0, 2, 12000000⟩,
   ⟨13, 0, 2, 22000000⟩, ⟨14, 0, 2, 16000000⟩, ⟨15, 0, 2, 14000000⟩]

/- ## Lemmas: sums, concatenation, grouping -/

theorem sumAmounts_nil : sumAmounts [] = 0 := rfl

theorem sumAmounts_cons (u : Utxo) (us : List Utxo) :
    sumAmounts (u :: us) = u.amount + sumAmounts us := by
  simp [sumAmounts]

theorem sumAmounts_append (us vs : List Utxo) :
    sumAmounts (us ++ vs) = sumAmounts us + sumAmounts vs := by
  simp [sumAmounts]

theorem sumAmounts_filter_partition (p : Utxo → Bool) (us : List Utxo) :
    sumAmounts (us.filter p) + sumAmounts (us.filter fun v => !(p v)) = sumAmounts us := by
  induction us with
  | nil => rfl
  | cons u rest ih =>
    by_cases hu : p u
    · simp [List.filter_cons, hu, sumAmounts_cons, ← ih]
      omega
    · simp only [Bool.not_eq_true] at hu
      simp [List.filter_cons, hu, sumAmounts_cons, ← ih]
      omega

theorem concatAll_nil : concatAll [] = [] := rfl

theorem concatAll_cons (g : List Utxo) (gs : List (List Utxo)) :
    concatAll (g :: gs) = g ++ concatAll gs := rfl

theorem sumAmounts_concatAll (gs : List (List Utxo)) :
    sumAmounts (concatAll gs) = (gs.map sumAmounts).sum := by
  induction gs with
  | nil => rfl
  | cons g gs ih => simp [concatAll_cons, sumAmounts_append, ih]

theorem mem_concatAll {u : Utxo} {gs : List (List Utxo)} :
    u ∈ concatAll gs ↔ ∃ g ∈ gs, u ∈ g := by
  induction gs with
  | nil => simp [concatAll_nil]
  | cons g gs ih => simp [concatAll_cons, List.mem_append, ih]

theorem groupByAddrAux_irrel :
    ∀ (f g : Nat) (us : List Utxo), us.length ≤ f → us.length ≤ g →
      groupByAddrAux f us = groupByAddrAux g us := by
  intro f
  induction f with
  | zero =>
    intro g us hf _
    have : us = [] := List.length_eq_zero.mp (Nat.le_zero.mp hf)
    subst this
    cases g <;> rfl
  | succ f ih =>
    intro g us hf hg
    cases us with
    | nil => cases g <;> rfl
    | cons u rest =>
      cases g with
      | zero => simp at hg
      | succ g =>
        simp only [groupByAddrAux]
        have hlen : (rest.filter fun v => !(v.addr == u.addr)).length ≤ rest.length :=
          List.length_filter_le _ _
        have hrest : rest.length ≤ f := by simpa using hf
        have hrest2 : rest.length ≤ g := by simpa using hg
        rw [ih g _ (le_trans hlen hrest) (le_trans hlen hrest2)]

theorem groupByAddr_nil : groupByAddr [] = [] := rfl

theorem groupByAddr_cons (u : Utxo) (rest : List Utxo) :
    groupByAddr (u :: rest) =
      (u :: rest.filter (fun v => v.addr == u.addr)) ::
        groupByAddr (rest.filter fun v => !(v.addr == u.addr)) := by
  show groupByAddrAux (rest.length + 1) (u :: rest) = _
  simp only [groupByAddrAux]
  rw [groupByAddrAux_irrel rest.length (rest.filter fun v => !(v.addr == u.addr)).length
    (rest.filter fun v => !(v.addr == u.addr)) (List.length_filter_le _ _) le_rfl]
  rfl

theorem sum_groupByAddr_bounded :
    ∀ (n : Nat) (us : List Utxo), us.length ≤ n →
      ((groupByAddr us).map sumAmounts).sum = sumAmounts us := by
  intro n
  induction n with
  | zero =>
    intro us h
    have : us = [] := List.length_eq_zero.mp (Nat.le_zero.mp h)
    subst this
    rfl
  | succ n ih =>
    intro us h
    cases us with
    | nil => rfl
    | cons u rest =>
      rw [groupByAddr_cons]
      have hrest : rest.length ≤ n := by simpa using h
      have hlen : (rest.filter fun v => !(v.addr == u.addr)).length ≤ n :=
        le_trans (List.length_filter_le _ _) hrest
      simp only [List.map_cons, List.sum_cons, ih _ hlen, sumAmounts_cons]
      have := sumAmounts_filter_partition (fun v => v.addr == u.addr) rest
      omega

theorem sum_groupByAddr (us : List Utxo) :
    ((groupByAddr us).map sumAmounts).sum = sumAmounts us :=
  sum_groupByAddr_bounded us.length us le_rfl

theorem mem_of_mem_groupByAddr_bounded :
    ∀ (n : Nat) (us : List Utxo), us.length ≤ n →
      ∀ g ∈ groupByAddr us, ∀ u ∈ g, u ∈ us := by
  intro n
  induction n with
  | zero =>
    intro us h
    have : us = [] := List.length_eq_zero.mp (Nat.le_zero.mp h)
    subst this
    simp [groupByAddr_nil]
  | succ n ih =>
    intro us h g hg u hu
    cases us with
    | nil => simp [groupByAddr_nil] at hg
    | cons u0 rest =>
      rw [groupByAddr_cons] at hg
      have hrest : rest.length ≤ n := by simpa using h
      have hlen : (rest.filter fun v => !(v.addr == u0.addr)).length ≤ n :=
        le_trans (List.length_filter_le _ _) hrest
      rcases List.mem_cons.mp hg with hhead | htail
      · subst hhead
        rcases List.mem_cons.mp hu with rfl | hmem
        · exact List.mem_cons_self _ _
        · exact List.mem_cons_of_mem _ (List.mem_of_mem_filter hmem)
      · have := ih _ hlen g htail u hu
        exact List.mem_cons_of_mem _ (List.mem_of_mem_filter this)

theorem groupByAddr_block_bounded :
    ∀ (n : Nat) (us : List Utxo), us.length ≤ n →
      ∀ g ∈ groupByAddr us, ∀ u ∈ g, ∀ v ∈ us, v.addr = u.addr → v ∈ g := by
  intro n
  induction n with
  | zero =>
    intro us h
    have : us = [] := List.length_eq_zero.mp (Nat.le_zero.mp h)
    subst this
    simp [groupByAddr_nil]
  | succ n ih =>
    intro us h g hg u hu v hv hav
    cases us with
    | nil => simp [groupByAddr_nil] at hg
    | cons u0 rest =>
      rw [groupByAddr_cons] at hg
      have hrest : rest.length ≤ n := by simpa using h
      have hlen : (rest.filter fun v => !(v.addr == u0.addr)).length ≤ n :=
        le_trans (List.length_filter_le _ _) hrest
      rcases List.mem_cons.mp hg with hhead | htail
      · subst hhead
        have huaddr : u.addr = u0.addr := by
          rcases List.mem_cons.mp hu with rfl | hmem
          · rfl
          · simpa using (List.mem_filter.mp hmem).2
        rcases List.mem_cons.mp hv with rfl | hvmem
        · exact List.mem_cons_self _ _
        · refine List.mem_cons_of_mem _ (List.mem_filter.mpr ⟨hvmem, ?_⟩)
          simp [hav, huaddr]
      · have huaddr : u.addr ≠ u0.addr := by
          have humem : u ∈ rest.filter fun v => !(v.addr == u0.addr) :=
            mem_of_mem_groupByAddr_bounded n _ hlen g htail u hu
          simpa using (List.mem_filter.mp humem).2
        rcases List.mem_cons.mp hv with rfl | hvmem
        · exact absurd hav (Ne.symm huaddr)
        · have hvfilt : v ∈ rest.filter fun w => !(w.addr == u0.addr) := by
            refine List.mem_filter.mpr ⟨hvmem, ?_⟩
            simp [hav, huaddr]
          exact ih _ hlen g htail u hu v hvfilt hav

/- ## Lemmas: selection -/

theorem pickMinCovering_sound :
    ∀ (req : Nat) (gs : List (List Utxo)) (g : List Utxo),
      pickMinCovering req gs = some g → g ∈ gs ∧ req ≤ sumAmounts g := by
  intro req gs
  induction gs with
  | nil => intro g h; exact Option.noConfusion h
  | cons g0 gs ih =>
    intro g h
    cases hrec : pickMinCovering req gs with
    | none =>
      simp only [pickMinCovering, hrec] at h
      by_cases hcov : req ≤ sumAmounts g0
      · rw [if_pos hcov] at h
        cases h
        exact ⟨List.mem_cons_self _ _, hcov⟩
      · rw [if_neg hcov] at h
        exact Option.noConfusion h
    | some best =>
      simp only [pickMinCovering, hrec] at h
      by_cases hcov : req ≤ sumAmounts g0
      · by_cases hlt : sumAmounts g0 < sumAmounts best
        · rw [if_pos (by simp [hcov, hlt])] at h
          cases h
          exact ⟨List.mem_cons_self _ _, hcov⟩
        · rw [if_neg (by simp [hlt])] at h
          cases h
          obtain ⟨hmem, hc⟩ := ih g hrec
          exact ⟨List.mem_cons_of_mem _ hmem, hc⟩
      · rw [if_neg (by simp [hcov])] at h
        cases h
        obtain ⟨hmem, hc⟩ := ih g hrec
        exact ⟨List.mem_cons_of_mem _ hmem, hc⟩

theorem accumulateGroups_sound :
    ∀ (req : Nat) (gs sel : List (List Utxo)),
      accumulateGroups req gs = some sel →
        req ≤ (sel.map sumAmounts).sum ∧ sel.Sublist gs := by
  intro req gs
  induction gs generalizing req with
  | nil =>
    intro sel h
    simp only [accumulateGroups] at h
    by_cases hreq : req = 0
    · rw [if_pos hreq] at h
      cases h
      simp [hreq]
    · rw [if_neg hreq] at h
      exact Option.noConfusion h
  | cons g0 gs ih =>
    intro sel h
    simp only [accumulateGroups] at h
    by_cases hcov : req ≤ sumAmounts g0
    · rw [if_pos hcov] at h
      cases h
      constructor
      · simpa using hcov
      · exact List.Sublist.cons₂ _ (List.nil_sublist gs)
    · rw [if_neg hcov] at h
      cases hrec : accumulateGroups (req - sumAmounts g0) gs with
      | none => rw [hrec] at h; exact Option.noConfusion h
      | some sel0 =>
        rw [hrec] at h
        simp only [Option.map_some'] at h
        cases h
        have hs := ih _ _ hrec
        constructor
        · simp only [List.map_cons, List.sum_cons]
          omega
        · exact List.Sublist.cons₂ _ hs.2

theorem accumulateGroups_complete :
    ∀ (req : Nat) (gs : List (List Utxo)),
      req ≤ (gs.map sumAmounts).sum → (accumulateGroups req gs).isSome := by
  intro req gs
  induction gs generalizing req with
  | nil =>
    intro h
    simp only [List.map_nil, List.sum_nil, Nat.le_zero] at h
    simp [accumulateGroups, h]
  | cons g0 gs ih =>
    intro h
    simp only [List.map_cons, List.sum_cons] at h
    by_cases hcov : req ≤ sumAmounts g0
    · simp [accumulateGroups, hcov]
    · have hrest := ih (req - sumAmounts g0) (by omega)
      simp only [accumulateGroups, if_neg hcov]
      cases hrec : accumulateGroups (req - sumAmounts g0) gs with
      | none => rw [hrec] at hrest; simp at hrest
      | some sel => simp

theorem coin_select_sound {us : List Utxo} {req : Nat} {sel : List Utxo}
    (h : coin_select us req = some sel) :
    req ≤ sumAmounts sel ∧ sumAmounts sel ≤ sumAmounts us ∧
      (∀ u ∈ sel, u ∈ us) ∧
      (∀ u ∈ sel, ∀ v ∈ us, v.addr = u.addr → v ∈ sel) := by
  cases hpick : pickMinCovering req (groupByAddr us) with
  | some g =>
    simp only [coin_select, hpick] at h
    cases h
    obtain ⟨hmem, hcov⟩ := pickMinCovering_sound req _ _ hpick
    refine ⟨hcov, ?_, ?_, ?_⟩
    · calc sumAmounts sel ≤ ((groupByAddr us).map sumAmounts).sum :=
            List.le_sum_of_mem (List.mem_map_of_mem _ hmem)
        _ = sumAmounts us := sum_groupByAddr us
    · intro u hu
      exact mem_of_mem_groupByAddr_bounded us.length us le_rfl _ hmem u hu
    · intro u hu v hv hav
      exact groupByAddr_block_bounded us.length us le_rfl _ hmem u hu v hv hav
  | none =>
    cases hacc : accumulateGroups req (groupByAddr us) with
    | none =>
      simp only [coin_select, hpick, hacc, Option.map_none'] at h
      exact Option.noConfusion h
    | some gsel =>
      simp only [coin_select, hpick, hacc, Option.map_some'] at h
      cases h
      obtain ⟨hcov, hsub⟩ := accumulateGroups_sound req _ _ hacc
      have hmemg : ∀ g ∈ gsel, g ∈ groupByAddr us := fun g hg => hsub.mem hg
      refine ⟨?_, ?_, ?_, ?_⟩
      · rw [sumAmounts_concatAll]; exact hcov
      · rw [sumAmounts_concatAll]
        calc (gsel.map sumAmounts).sum ≤ ((groupByAddr us).map sumAmounts).sum :=
              List.Sublist.sum_le_sum (hsub.map sumAmounts) (fun a _ => Nat.zero_le a)
          _ = sumAmounts us := sum_groupByAddr us
      · intro u hu
        obtain ⟨g, hg, hug⟩ := mem_concatAll.mp hu
        exact mem_of_mem_groupByAddr_bounded us.length us le_rfl _ (hmemg g hg) u hug
      · intro u hu v hv hav
        obtain ⟨g, hg, hug⟩ := mem_concatAll.mp hu
        have hvg := groupByAddr_block_bounded us.length us le_rfl _ (hmemg g hg) u hug v hv hav
        exact mem_concatAll.mpr ⟨g, hg, hvg⟩

theorem coin_select_complete {us : List Utxo} {req : Nat}
    (h : req ≤ sumAmounts us) : (coin_select us req).isSome := by
  cases hpick : pickMinCovering req (groupByAddr us) with
  | some g => simp [coin_select, hpick]
  | none =>
    have hsum : req ≤ ((groupByAddr us).map sumAmounts).sum := by
      rw [sum_groupByAddr]; exact h
    have hread := accumulateGroups_complete req (groupByAddr us) hsum
    cases hacc : accumulateGroups req (groupByAddr us) with
    | none => rw [hacc] at hread; simp at hread
    | some sel2 => simp [coin_select, hpick, hacc]

/- ## Lemmas: codec primitives -/

theorem serVarintAux_irrel :
    ∀ (f g n : Nat), n ≤ f → n ≤ g → serVarintAux f n = serVarintAux g n := by
  intro f
  induction f with
  | zero =>
    intro g n hf _
    have : n = 0 := Nat.le_zero.mp hf
    subst this
    cases g <;> simp [serVarintAux]
  | succ f ih =>
    intro g n hf hg
    cases g with
    | zero =>
      have : n = 0 := Nat.le_zero.mp hg
      subst this
      simp [serVarintAux]
    | succ g =>
      by_cases hn : n < 128
      · simp [serVarintAux, hn]
      · have hdiv : n / 128 < n := Nat.div_lt_self (by omega) (by omega)
        simp only [serVarintAux, if_neg hn]
        rw [ih g (n / 128) (by omega) (by omega)]

theorem serVarint_step (n : Nat) :
    serVarint n = if n < 128 then [n] else (n % 128 + 128) :: serVarint (n / 128) := by
  cases n with
  | zero => simp [serVarint, serVarintAux]
  | succ m =>
    by_cases h : m + 1 < 128
    · simp [serVarint, serVarintAux, h]
    · have hdiv : (m + 1) / 128 < m + 1 := Nat.div_lt_self (by omega) (by omega)
      show serVarintAux (m + 1) (m + 1) = _
      simp only [serVarintAux, if_neg h]
      rw [serVarintAux_irrel m ((m + 1) / 128) ((m + 1) / 128) (by omega) le_rfl]
      rfl

theorem parseVarint_serVarint (n : Nat) :
    ∀ tail, parseVarint (serVarint n ++ tail) = some (n, tail) := by
  induction n using Nat.strong_induction_on with
  | _ n ih =>
    intro tail
    rw [serVarint_step]
    by_cases h : n < 128
    · simp [parseVarint, h]
    · have hb1 : ¬ (n % 128 + 128 < 128) := by omega
      have hb2 : n % 128 + 128 < 256 := by omega
      have hdiv : n / 128 < n := Nat.div_lt_self (by omega) (by omega)
      have hne : ¬ (n / 128 = 0) := by omega
      have hval : n % 128 + 128 - 128 + 128 * (n / 128) = n := by omega
      rw [if_neg h, List.cons_append]
      simp only [parseVarint, if_neg hb1, if_pos hb2]
      rw [ih (n / 128) hdiv tail, Option.some_bind]
      dsimp only
      rw [if_neg hne, hval]

theorem parseVarint_canonical :
    ∀ (bs : List Nat) (n : Nat) (rest : List Nat),
      parseVarint bs = some (n, rest) → serVarint n ++ rest = bs := by
  intro bs
  induction bs with
  | nil => intro n rest h; exact Option.noConfusion h
  | cons b tl ih =>
    intro n rest h
    simp only [parseVarint] at h
    by_cases hb : b < 128
    · rw [if_pos hb] at h
      cases h
      rw [serVarint_step, if_pos hb]
      rfl
    · rw [if_neg hb] at h
      by_cases hb2 : b < 256
      · rw [if_pos hb2] at h
        cases hrec : parseVarint tl with
        | none => rw [hrec, Option.none_bind] at h; exact Option.noConfusion h
        | some p =>
          obtain ⟨m, tl2⟩ := p
          rw [hrec, Option.some_bind] at h
          dsimp only at h
          by_cases hm : m = 0
          · rw [if_pos hm] at h
            exact Option.noConfusion h
          · rw [if_neg hm] at h
            simp only [Option.some.injEq, Prod.mk.injEq] at h
            obtain ⟨hn, hrest⟩ := h
            have htl := ih m tl2 hrec
            rw [← hn, ← hrest]
            rw [serVarint_step, if_neg (by omega : ¬ b - 128 + 128 * m < 128)]
            have hhead : (b - 128 + 128 * m) % 128 + 128 = b := by omega
            have hdiv : (b - 128 + 128 * m) / 128 = m := by omega
            rw [hhead, hdiv, List.cons_append, htl]
      · rw [if_neg hb2] at h
        exact Option.noConfusion h

theorem readN_exact (xs tail : List Nat) :
    readN xs.length (xs ++ tail) = some (xs, tail) := by
  unfold readN
  rw [if_pos (by simp)]
  rw [List.take_left, List.drop_left]

theorem readN_sound {n : Nat} {bs xs rest : List Nat}
    (h : readN n bs = some (xs, rest)) : xs ++ rest = bs ∧ xs.length = n := by
  unfold readN at h
  by_cases hle : n ≤ bs.length
  · rw [if_pos hle] at h
    cases h
    exact ⟨List.take_append_drop n bs, by simp [List.length_take, Nat.min_eq_left hle]⟩
  · rw [if_neg hle] at h
    exact Option.noConfusion h

theorem parseBytesF_serBytes (xs : List Nat) :
    ∀ tail, parseBytesF (serBytes xs ++ tail) = some (xs, tail) := by
  intro tail
  unfold parseBytesF serBytes
  rw [List.append_assoc, parseVarint_serVarint, Option.some_bind]
  exact readN_exact xs tail

theorem parseBytesF_canonical {bs xs rest : List Nat}
    (h : parseBytesF bs = some (xs, rest)) : serBytes xs ++ rest = bs := by
  unfold parseBytesF at h
  cases hv : parseVarint bs with
  | none => rw [hv, Option.none_bind] at h; exact Option.noConfusion h
  | some p =>
    obtain ⟨n, rest1⟩ := p
    rw [hv, Option.some_bind] at h
    dsimp only at h
    obtain ⟨happ, hlen⟩ := readN_sound h
    have hcan := parseVarint_canonical bs n rest1 hv
    rw [serBytes, hlen, List.append_assoc, happ, hcan]

theorem parseNBytes_ser (xs : List (List Nat)) :
    ∀ tail, parseNBytes xs.length ((xs.map serBytes).foldr (· ++ ·) [] ++ tail) =
      some (xs, tail) := by
  induction xs with
  | nil => intro tail; simp [parseNBytes]
  | cons x xs ih =>
    intro tail
    simp only [List.map_cons, List.foldr_cons, List.length_cons, parseNBytes,
      List.append_assoc, parseBytesF_serBytes, Option.some_bind, ih, Option.map_some']

theorem parseNBytes_canonical :
    ∀ (n : Nat) (bs : List Nat) (xs : List (List Nat)) (rest : List Nat),
      parseNBytes n bs = some (xs, rest) →
        (xs.map serBytes).foldr (· ++ ·) [] ++ rest = bs ∧ xs.length = n := by
  intro n
  induction n with
  | zero =>
    intro bs xs rest h
    simp only [parseNBytes] at h
    cases h
    simp
  | succ n ih =>
    intro bs xs rest h
    simp only [parseNBytes] at h
    cases hf : parseBytesF bs with
    | none => rw [hf, Option.none_bind] at h; exact Option.noConfusion h
    | some p =>
      obtain ⟨x, rest1⟩ := p
      rw [hf, Option.some_bind] at h
      dsimp only at h
      cases hrec : parseNBytes n rest1 with
      | none => rw [hrec] at h; exact Option.noConfusion h
      | some q =>
        obtain ⟨xs0, rest2⟩ := q
        rw [hrec] at h
        simp only [Option.map_some'] at h
        simp only [Option.some.injEq, Prod.mk.injEq] at h
        obtain ⟨hxs, hrest⟩ := h
        subst hxs
        obtain ⟨happ, hlen⟩ := ih rest1 xs0 rest2 hrec
        constructor
        · simp only [List.map_cons, List.foldr_cons, List.append_assoc, ← hrest, happ]
          exact parseBytesF_canonical hf
        · simp [hlen]

theorem parseBytesList_ser (xs : List (List Nat)) :
    ∀ tail, parseBytesList (serBytesList xs ++ tail) = some (xs, tail) := by
  intro tail
  unfold parseBytesList serBytesList
  rw [List.append_assoc, parseVarint_serVarint, Option.some_bind]
  exact parseNBytes_ser xs tail

theorem parseBytesList_canonical {bs rest : List Nat} {xs : List (List Nat)}
    (h : parseBytesList bs = some (xs, rest)) : serBytesList xs ++ rest = bs := by
  unfold parseBytesList at h
  cases hv : parseVarint bs with
  | none => rw [hv, Option.none_bind] at h; exact Option.noConfusion h
  | some p =>
    obtain ⟨n, rest1⟩ := p
    rw [hv, Option.some_bind] at h
    dsimp only at h
    obtain ⟨happ, hlen⟩ := parseNBytes_canonical n rest1 xs rest h
    have hcan := parseVarint_canonical bs n rest1 hv
    rw [serBytesList, hlen, List.append_assoc, happ, hcan]

theorem parse6_ser6 (a b c d e f : Nat) :
    ∀ tail, parse6 (ser6 a b c d e f ++ tail) = some ((a, b, c, d, e, f), tail) := by
  intro tail
  unfold parse6 ser6
  simp only [List.append_assoc, parseVarint_serVarint, Option.some_bind]

theorem parse6_canonical {bs rest : List Nat} {a b c d e f : Nat}
    (h : parse6 bs = some ((a, b, c, d, e, f), rest)) :
    ser6 a b c d e f ++ rest = bs := by
  unfold parse6 at h
  cases h1 : parseVarint bs with
  | none => rw [h1, Option.none_bind] at h; exact Option.noConfusion h
  | some p1 =>
    obtain ⟨a1, r1⟩ := p1
    rw [h1, Option.some_bind] at h
    dsimp only at h
    cases h2 : parseVarint r1 with
    | none => rw [h2, Option.none_bind] at h; exact Option.noConfusion h
    | some p2 =>
      obtain ⟨b1, r2⟩ := p2
      rw [h2, Option.some_bind] at h
      dsimp only at h
      cases h3 : parseVarint r2 with
      | none => rw [h3, Option.none_bind] at h; exact Option.noConfusion h
      | some p3 =>
        obtain ⟨c1, r3⟩ := p3
        rw [h3, Option.some_bind] at h
        dsimp only at h
        cases h4 : parseVarint r3 with
        | none => rw [h4, Option.none_bind] at h; exact Option.noConfusion h
        | some p4 =>
          obtain ⟨d1, r4⟩ := p4
          rw [h4, Option.some_bind] at h
          dsimp only at h
          cases h5 : parseVarint r4 with
          | none => rw [h5, Option.none_bind] at h; exact Option.noConfusion h
          | some p5 =>
            obtain ⟨e1, r5⟩ := p5
            rw [h5, Option.some_bind] at h
            dsimp only at h
            cases h6 : parseVarint r5 with
            | none => rw [h6, Option.none_bind] at h; exact Option.noConfusion h
            | some p6 =>
              obtain ⟨f1, r6⟩ := p6
              rw [h6, Option.some_bind] at h
              dsimp only at h
              simp only [Option.some.injEq, Prod.mk.injEq] at h
              obtain ⟨⟨rfl, rfl, rfl, rfl, rfl, rfl⟩, rfl⟩ := h
              rw [ser6, List.append_assoc, List.append_assoc, List.append_assoc,
                List.append_assoc, List.append_assoc,
                parseVarint_canonical _ _ _ h6, parseVarint_canonical _ _ _ h5,
                parseVarint_canonical _ _ _ h4, parseVarint_canonical _ _ _ h3,
                parseVarint_canonical _ _ _ h2, parseVarint_canonical _ _ _ h1]

/- ## Lemmas: message body and frame -/

theorem parseVarint_serVarint_nil (n : Nat) : parseVarint (serVarint n) = some (n, []) := by
  simpa using parseVarint_serVarint n []

theorem parseBytesF_serBytes_nil (xs : List Nat) :
    parseBytesF (serBytes xs) = some (xs, []) := by
  simpa using parseBytesF_serBytes xs []

theorem parseBytesList_ser_nil (xs : List (List Nat)) :
    parseBytesList (serBytesList xs) = some (xs, []) := by
  simpa using parseBytesList_ser xs []

theorem parse6_ser6_nil (a b c d e f : Nat) :
    parse6 (ser6 a b c d e f) = some ((a, b, c, d, e, f), []) := by
  simpa using parse6_ser6 a b c d e f []

theorem withEnd_eq_some {α : Type} {f : α → Message} {o : Option (α × List Nat)}
    {m : Message} (h : withEnd f o = some m) : ∃ a, o = some (a, []) ∧ m = f a := by
  rcases o with _ | ⟨a, rest⟩
  · exact Option.noConfusion h
  · rcases rest with _ | ⟨b, bs⟩
    · have h' : some (f a) = some m := h
      injection h' with hh
      exact ⟨a, rfl, hh.symm⟩
    · exact Option.noConfusion h

theorem parseBody_serializeBody (m : Message) : parseBody (serializeBody m) = some m := by
  cases m <;>
    simp [serializeBody, parseBody, withEnd, parseVarint_serVarint_nil,
      parseBytesF_serBytes_nil, parseBytesList_ser_nil, parse6_ser6_nil]

theorem parseBody_canonical :
    ∀ (bs : List Nat) (m : Message), parseBody bs = some m → serializeBody m = bs := by
  intro bs m h
  cases bs with
  | nil => exact Option.noConfusion h
  | cons t rest =>
    simp only [parseBody] at h
    by_cases h0 : t = 0
    · subst h0
      rw [if_pos rfl] at h
      obtain ⟨v, hv, rfl⟩ := withEnd_eq_some h
      have hc := parseVarint_canonical _ _ _ hv
      rw [List.append_nil] at hc
      simp [serializeBody, hc]
    · rw [if_neg h0] at h
      by_cases h1 : t = 1
      · subst h1
        rw [if_pos rfl] at h
        obtain ⟨v, hv, rfl⟩ := withEnd_eq_some h
        have hc := parseVarint_canonical _ _ _ hv
        rw [List.append_nil] at hc
        simp [serializeBody, hc]
      · rw [if_neg h1] at h
        by_cases h2 : t = 2
        · subst h2
          rw [if_pos rfl] at h
          by_cases hr : rest = []
          · rw [if_pos hr] at h
            cases h
            simp [serializeBody, hr]
          · rw [if_neg hr] at h
            exact Option.noConfusion h
        · rw [if_neg h2] at h
          by_cases h3 : t = 3
          · subst h3
            rw [if_pos rfl] at h
            obtain ⟨p, hp, rfl⟩ := withEnd_eq_some h
            obtain ⟨a, b, c, d, e, f⟩ := p
            have hc := parse6_canonical hp
            rw [List.append_nil] at hc
            simp [serializeBody, hc]
          · rw [if_neg h3] at h
            by_cases h4 : t = 4
            · subst h4
              rw [if_pos rfl] at h
              obtain ⟨xs, hx, rfl⟩ := withEnd_eq_some h
              have hc := parseBytesList_canonical hx
              rw [List.append_nil] at hc
              simp [serializeBody, hc]
            · rw [if_neg h4] at h
              by_cases h5 : t = 5
              · subst h5
                rw [if_pos rfl] at h
                obtain ⟨xs, hx, rfl⟩ := withEnd_eq_some h
                have hc := parseBytesList_canonical hx
                rw [List.append_nil] at hc
                simp [serializeBody, hc]
              · rw [if_neg h5] at h
                by_cases h6 : t = 6
                · subst h6
                  rw [if_pos rfl] at h
                  obtain ⟨xs, hx, rfl⟩ := withEnd_eq_some h
                  have hc := parseBytesList_canonical hx
                  rw [List.append_nil] at hc
                  simp [serializeBody, hc]
                · rw [if_neg h6] at h
                  by_cases h7 : t = 7
                  · subst h7
                    rw [if_pos rfl] at h
                    obtain ⟨xs, hx, rfl⟩ := withEnd_eq_some h
                    have hc := parseBytesList_canonical hx
                    rw [List.append_nil] at hc
                    simp [serializeBody, hc]
                  · rw [if_neg h7] at h
                    by_cases h8 : t = 8
                    · subst h8
                      rw [if_pos rfl] at h
                      obtain ⟨xs, hx, rfl⟩ := withEnd_eq_some h
                      have hc := parseBytesList_canonical hx
                      rw [List.append_nil] at hc
                      simp [serializeBody, hc]
                    · rw [if_neg h8] at h
                      by_cases h9 : t = 9
                      · subst h9
                        rw [if_pos rfl] at h
                        obtain ⟨xs, hx, rfl⟩ := withEnd_eq_some h
                        have hc := parseBytesList_canonical hx
                        rw [List.append_nil] at hc
                        simp [serializeBody, hc]
                      · rw [if_neg h9] at h
                        by_cases h10 : t = 10
                        · subst h10
                          rw [if_pos rfl] at h
                          obtain ⟨xs, hx, rfl⟩ := withEnd_eq_some h
                          have hc := parseBytesList_canonical hx
                          rw [List.append_nil] at hc
                          simp [serializeBody, hc]
                        · rw [if_neg h10] at h
                          by_cases h11 : t = 11
                          · subst h11
                            rw [if_pos rfl] at h
                            obtain ⟨p, hp, rfl⟩ := withEnd_eq_some h
                            have hc := parseBytesF_canonical hp
                            rw [List.append_nil] at hc
                            simp [serializeBody, hc]
                          · rw [if_neg h11] at h
                            by_cases h12 : t = 12
                            · subst h12
                              rw [if_pos rfl] at h
                              obtain ⟨xs, hx, rfl⟩ := withEnd_eq_some h
                              have hc := parseBytesList_canonical hx
                              rw [List.append_nil] at hc
                              simp [serializeBody, hc]
                            · rw [if_neg h12] at h
                              exact Option.noConfusion h

theorem parseMsg_serializeMsg (m : Message)
    (hlen : (serializeBody m).length < 4294967296) :
    parseMsg (serializeMsg m) = some m := by
  have h0 : (serializeBody m).length / 16777216 % 256 < 256 := Nat.mod_lt _ (by norm_num)
  have h1 : (serializeBody m).length / 65536 % 256 < 256 := Nat.mod_lt _ (by norm_num)
  have h2 : (serializeBody m).length / 256 % 256 < 256 := Nat.mod_lt _ (by norm_num)
  have h3 : (serializeBody m).length % 256 < 256 := Nat.mod_lt _ (by norm_num)
  have hval :
      (((serializeBody m).length / 16777216 % 256 * 256 +
            (serializeBody m).length / 65536 % 256) * 256 +
          (serializeBody m).length / 256 % 256) * 256 +
        (serializeBody m).length % 256 = (serializeBody m).length := by
    omega
  unfold parseMsg serializeMsg natBE4
  simp only [List.cons_append, List.nil_append]
  simp only [readBE4]
  rw [if_pos (by simp [h0, h1, h2, h3])]
  rw [Option.some_bind]
  dsimp only
  rw [hval, if_pos rfl]
  exact parseBody_serializeBody m

theorem parseMsg_canonical (bs : List Nat) (m : Message)
    (h : parseMsg bs = some m) : serializeMsg m = bs := by
  unfold parseMsg at h
  rcases bs with _ | ⟨b0, _ | ⟨b1, _ | ⟨b2, _ | ⟨b3, rest⟩⟩⟩⟩
  · simp [readBE4] at h
  · simp [readBE4] at h
  · simp [readBE4] at h
  · simp [readBE4] at h
  · simp only [readBE4] at h
    by_cases hv0 : b0 < 256
    · by_cases hv1 : b1 < 256
      · by_cases hv2 : b2 < 256
        · by_cases hv3 : b3 < 256
          · rw [if_pos (by simp [hv0, hv1, hv2, hv3])] at h
            rw [Option.some_bind] at h
            dsimp only at h
            by_cases hlen : rest.length = ((b0 * 256 + b1) * 256 + b2) * 256 + b3
            · rw [if_pos hlen] at h
              have hcan := parseBody_canonical rest m h
              have e0 : (((b0 * 256 + b1) * 256 + b2) * 256 + b3) / 16777216 % 256 = b0 := by
                omega
              have e1 : (((b0 * 256 + b1) * 256 + b2) * 256 + b3) / 65536 % 256 = b1 := by
                omega
              have e2 : (((b0 * 256 + b1) * 256 + b2) * 256 + b3) / 256 % 256 = b2 := by
                omega
              have e3 : (((b0 * 256 + b1) * 256 + b2) * 256 + b3) % 256 = b3 := by
                omega
              rw [serializeMsg, hcan, hlen]
              simp [natBE4, e0, e1, e2, e3]
            · rw [if_neg hlen] at h
              exact Option.noConfusion h
          · rw [if_neg (by simp [hv3])] at h
            exact Option.noConfusion h
        · rw [if_neg (by simp [hv2])] at h
          exact Option.noConfusion h
      · rw [if_neg (by simp [hv1])] at h
        exact Option.noConfusion h
    · rw [if_neg (by simp [hv0])] at h
      exact Option.noConfusion h

/- ## Lemmas: orchestrator -/

theorem maker_fees_paid_le (params : SwapParams) :
    ∀ (amt : Nat) (ms : List MakerInfo),
      (runHops params amt ms).maker_fees_paid ≤ totalMakerFees ms := by
  intro amt ms
  induction ms generalizing amt with
  | nil => simp [runHops, totalMakerFees]
  | cons m rest ih =>
    have htot : totalMakerFees (m :: rest) = m.fee + totalMakerFees rest := by
      simp [totalMakerFees]
    cases hb : m.behavior with
    | Normal =>
      have := ih (amt - m.fee)
      simp only [runHops, hb, htot]
      omega
    | CloseAtContractSigsForSender =>
      have := ih amt
      simp only [runHops, hb, htot]
      omega
    | CloseAtContractSigsForRecvr =>
      simp only [runHops, hb, htot]
      omega

theorem mining_fees_paid_le (params : SwapParams) :
    ∀ (amt : Nat) (ms : List MakerInfo),
      (runHops params amt ms).mining_fees_paid ≤ miningFeeBudget params ms := by
  intro amt ms
  induction ms generalizing amt with
  | nil => simp [runHops, miningFeeBudget]
  | cons m rest ih =>
    have hbud : miningFeeBudget params (m :: rest) =
        2 * txFee params.fee_rate + miningFeeBudget params rest := by
      simp [miningFeeBudget, List.length_cons, Nat.succ_mul, Nat.add_comm]
    cases hb : m.behavior with
    | Normal =>
      have := ih (amt - m.fee)
      simp only [runHops, hb, hbud]
      omega
    | CloseAtContractSigsForSender =>
      have := ih amt
      simp only [runHops, hb, hbud]
      omega
    | CloseAtContractSigsForRecvr =>
      simp only [runHops, hb, hbud]
      omega

theorem swept_add_fees_ge (params : SwapParams) :
    ∀ (amt : Nat) (ms : List MakerInfo),
      amt ≤ (runHops params amt ms).swept + (runHops params amt ms).maker_fees_paid := by
  intro amt ms
  induction ms generalizing amt with
  | nil => simp [runHops]
  | cons m rest ih =>
    cases hb : m.behavior with
    | Normal =>
      have := ih (amt - m.fee)
      simp only [runHops, hb]
      omega
    | CloseAtContractSigsForSender =>
      have := ih amt
      simp only [runHops, hb]
      omega
    | CloseAtContractSigsForRecvr =>
      simp only [runHops, hb]
      omega

theorem runHops_case2 (params : SwapParams) :
    ∀ (pre : List MakerInfo) (amt : Nat) (post : List MakerInfo) (m : MakerInfo),
      (∀ m' ∈ pre, m'.behavior ≠ MakerBehavior.CloseAtContractSigsForRecvr) →
      m.behavior = MakerBehavior.CloseAtContractSigsForRecvr →
      m.address ∈ (runHops params amt (pre ++ m :: post)).bad_makers ∧
      TakerEvent.WaitUntilHeight m.outgoing_timelock ∈
        (runHops params amt (pre ++ m :: post)).events ∧
      TakerEvent.TimelockSweep m.address m.outgoing_timelock ∈
        (runHops params amt (pre ++ m :: post)).events := by
  intro pre
  induction pre with
  | nil =>
    intro amt post m _ hm
    simp [runHops, hm]
  | cons p rest ih =>
    intro amt post m hpre hm
    have hp : p.behavior ≠ MakerBehavior.CloseAtContractSigsForRecvr :=
      hpre p (List.mem_cons_self _ _)
    have hrest : ∀ m' ∈ rest, m'.behavior ≠ MakerBehavior.CloseAtContractSigsForRecvr :=
      fun m' hm' => hpre m' (List.mem_cons_of_mem _ hm')
    cases hb : p.behavior with
    | Normal =>
      obtain ⟨ha, hw, ht⟩ := ih (amt - p.fee) post m hrest hm
      rw [List.cons_append]
      simp [runHops, hb, List.mem_cons, ha, hw, ht]
    | CloseAtContractSigsForSender =>
      obtain ⟨ha, hw, ht⟩ := ih amt post m hrest hm
      rw [List.cons_append]
      simp [runHops, hb, List.mem_cons, ha, hw, ht]
    | CloseAtContractSigsForRecvr => exact absurd hb hp

/- ## Claims -/

/-- Claim C1: coin selection groups by address — every UTXO sharing an
address with a selected UTXO is selected too — and on the concrete
16-UTXO wallet of `test_address_grouping_behavior` the 50,000,000-sat
selection returns at least 4 UTXOs totalling at least 97,000,000 sats
(address C's six UTXOs) rather than the single 220,000,000-sat UTXO. -/
theorem claim_C1 :
    (∀ (us : List Utxo) (required : Nat) (sel : List Utxo),
        coin_select us required = some sel →
        ∀ u ∈ sel, ∀ v ∈ us, v.addr = u.addr → v ∈ sel) ∧
    (coin_select groupingTestWallet (50000000 + txFee MIN_FEE_RATE) =
        some groupingSelection ∧
      4 ≤ groupingSelection.length ∧
      97000000 ≤ sumAmounts groupingSelection ∧
      ∀ u ∈ groupingSelection, u.amount ≠ 220000000) := by
  constructor
  · intro us required sel h u hu v hv hav
    exact (coin_select_sound h).2.2.2 u hu v hv hav
  · refine ⟨by decide, by decide, by decide, by decide⟩

/-- Witness for C1: the grouping theorem applied on the concrete wallet — the
14M-sat UTXO shares address C with the selected 15M-sat UTXO, so it is in
the selection. -/
theorem claim_C1_witness :
    (⟨15, 0, 2, 14000000⟩ : Utxo) ∈ groupingSelection :=
  claim_C1.1 groupingTestWallet (50000000 + txFee MIN_FEE_RATE) groupingSelection
    (by decide) ⟨10, 0, 2, 15000000⟩ (by decide) ⟨15, 0, 2, 14000000⟩ (by decide) (by decide)

/-- Claim C2: when a Maker closes after `ContractSigsForRecvr` (funding
already broadcast) and no earlier Maker did, the Taker waits until that
Maker's outgoing timelock, reclaims via the timelock-path sweep, and the
Maker's address ends up in `bad_makers`. -/
theorem claim_C2 (params : SwapParams) (pre post : List MakerInfo) (m : MakerInfo)
    (hpre : ∀ m' ∈ pre, m'.behavior ≠ MakerBehavior.CloseAtContractSigsForRecvr)
    (hm : m.behavior = MakerBehavior.CloseAtContractSigsForRecvr) :
    m.address ∈ (send_coinswap params (pre ++ m :: post)).bad_makers ∧
    TakerEvent.WaitUntilHeight m.outgoing_timelock ∈
      (send_coinswap params (pre ++ m :: post)).events ∧
    TakerEvent.TimelockSweep m.address m.outgoing_timelock ∈
      (send_coinswap params (pre ++ m :: post)).events :=
  runHops_case2 params pre params.send_amount post m hpre hm

/-- Witness for C2: the `abort3_case2` configuration — Maker 6102 closes at
`ContractSigsForRecvr`, Maker 16102 is normal. -/
theorem claim_C2_witness :
    (6102 : Nat) ∈ (send_coinswap ⟨500000, 2, 3, 1, 1000⟩
        ([] ++ (⟨6102, MakerBehavior.CloseAtContractSigsForRecvr, 10000, 100⟩ : MakerInfo) ::
          [⟨16102, MakerBehavior.Normal, 10000, 80⟩])).bad_makers ∧
    TakerEvent.WaitUntilHeight 100 ∈ (send_coinswap ⟨500000, 2, 3, 1, 1000⟩
        ([] ++ (⟨6102, MakerBehavior.CloseAtContractSigsForRecvr, 10000, 100⟩ : MakerInfo) ::
          [⟨16102, MakerBehavior.Normal, 10000, 80⟩])).events ∧
    TakerEvent.TimelockSweep 6102 100 ∈ (send_coinswap ⟨500000, 2, 3, 1, 1000⟩
        ([] ++ (⟨6102, MakerBehavior.CloseAtContractSigsForRecvr, 10000, 100⟩ : MakerInfo) ::
          [⟨16102, MakerBehavior.Normal, 10000, 80⟩])).events :=
  claim_C2 ⟨500000, 2, 3, 1, 1000⟩ []
    [⟨16102, MakerBehavior.Normal, 10000, 80⟩]
    ⟨6102, MakerBehavior.CloseAtContractSigsForRecvr, 10000, 100⟩
    (by simp) rfl

/-- Claim C3: with at most one failing peer, the Taker's post-swap balance is
at least the pre-swap balance minus the sum of maker fees and the mining-fee
budget of the swap — a single peer failure never costs principal. -/
theorem claim_C3 (pre_balance : Int) (params : SwapParams) (ms : List MakerInfo)
    (_hfail : countFailedPeers ms ≤ 1) :
    post_swap_balance pre_balance params ms ≥
      pre_balance - (totalMakerFees ms : Int) - (miningFeeBudget params ms : Int) := by
  have h1 := maker_fees_paid_le params params.send_amount ms
  have h2 := mining_fees_paid_le params params.send_amount ms
  have h3 := swept_add_fees_ge params params.send_amount ms
  unfold post_swap_balance send_coinswap
  omega

/-- Witness for C3: one Maker that closes at `ContractSigsForRecvr` (one
failing peer). -/
theorem claim_C3_witness :
    post_swap_balance 10000000 ⟨500000, 2, 3, 1, 1000⟩
        [⟨6102, MakerBehavior.CloseAtContractSigsForRecvr, 10000, 100⟩] ≥
      10000000 -
        (totalMakerFees [⟨6102, MakerBehavior.CloseAtContractSigsForRecvr, 10000, 100⟩] : Int) -
        (miningFeeBudget ⟨500000, 2, 3, 1, 1000⟩
            [⟨6102, MakerBehavior.CloseAtContractSigsForRecvr, 10000, 100⟩] : Int) :=
  claim_C3 10000000 ⟨500000, 2, 3, 1, 1000⟩
    [⟨6102, MakerBehavior.CloseAtContractSigsForRecvr, 10000, 100⟩] (by decide)

/-- Counterexample to C4: the crate root does not compile a `watchtower`
module — the declaration is commented out in `src/lib.rs`, so the core does
not provide the claimed Watchtower component. -/
theorem claim_C4_counterexample : "watchtower" ∉ crateModules := by decide

/-- Claim C4 (amended): the crate root declares no Watchtower component; the
`watchtower` module exists only as a commented-out declaration ("Disable
watchtower for now"), and contract watching is handled individually by the
`maker` and `taker` modules, which the crate root does compile. -/
theorem claim_C4 :
    "watchtower" ∈ disabledCrateModules ∧
    "maker" ∈ crateModules ∧ "taker" ∈ crateModules ∧
    ∀ mo ∈ crateModules, mo ≠ "watchtower" := by
  decide

/-- Claim C5: codec round-trip — parsing any byte string to a message and
re-serializing reproduces the bytes exactly, and serializing any message
whose payload fits the 4-byte frame parses back to the same message. -/
theorem claim_C5 :
    (∀ (m : List Nat) (msg : Message), parseMsg m = some msg → serializeMsg msg = m) ∧
    (∀ msg : Message, (serializeBody msg).length < 4294967296 →
        parseMsg (serializeMsg msg) = some msg) :=
  ⟨fun m msg h => parseMsg_canonical m msg h, fun msg h => parseMsg_serializeMsg msg h⟩

/-- Witness for C5: the `GiveOffer` frame `[0,0,0,1,2]` round-trips both
ways. -/
theorem claim_C5_witness :
    serializeMsg Message.GiveOffer = [0, 0, 0, 1, 2] ∧
    parseMsg (serializeMsg Message.GiveOffer) = some Message.GiveOffer :=
  ⟨claim_C5.1 [0, 0, 0, 1, 2] Message.GiveOffer (by decide),
    claim_C5.2 Message.GiveOffer (by decide)⟩

/-- Claim C6: every Contract Builder function is stateless and
deterministic — two calls with identical inputs produce byte-identical
transactions (and identical contract scripts). -/
theorem claim_C6
    (wi wi' : List Utxo) (sp sp' rp rp' hsh hsh' pim pim' spk spk' : List Nat)
    (amt amt' fr fr' tl tl' vl vl' : Nat) (fo fo' co co' : OutPoint)
    (e1 : wi = wi') (e2 : sp = sp') (e3 : rp = rp') (e4 : hsh = hsh')
    (e5 : pim = pim') (e6 : spk = spk') (e7 : amt = amt') (e8 : fr = fr')
    (e9 : tl = tl') (e10 : vl = vl') (e11 : fo = fo') (e12 : co = co') :
    txBytes (build_funding_tx wi sp rp amt fr) =
      txBytes (build_funding_tx wi' sp' rp' amt' fr') ∧
    build_contract_script sp rp hsh tl = build_contract_script sp' rp' hsh' tl' ∧
    txBytes (build_contract_tx fo (build_contract_script sp rp hsh tl) vl) =
      txBytes (build_contract_tx fo' (build_contract_script sp' rp' hsh' tl') vl') ∧
    txBytes (build_sweep_tx co pim spk vl fr) =
      txBytes (build_sweep_tx co' pim' spk' vl' fr') ∧
    txBytes (build_timeout_tx co spk vl fr tl) =
      txBytes (build_timeout_tx co' spk' vl' fr' tl') := by
  subst e1 e2 e3 e4 e5 e6 e7 e8 e9 e10 e11 e12
  exact ⟨rfl, rfl, rfl, rfl, rfl⟩

/-- Witness for C6: the builders at one concrete set of inputs, called
twice. -/
theorem claim_C6_witness :
    txBytes (build_funding_tx [⟨1, 0, 0, 3000⟩] [2] [3] 1000 2) =
      txBytes (build_funding_tx [⟨1, 0, 0, 3000⟩] [2] [3] 1000 2) ∧
    build_contract_script [2] [3] [7] 50 = build_contract_script [2] [3] [7] 50 ∧
    txBytes (build_contract_tx ⟨9, 0⟩ (build_contract_script [2] [3] [7] 50) 900) =
      txBytes (build_contract_tx ⟨9, 0⟩ (build_contract_script [2] [3] [7] 50) 900) ∧
    txBytes (build_sweep_tx ⟨9, 1⟩ [5] [6] 900 2) =
      txBytes (build_sweep_tx ⟨9, 1⟩ [5] [6] 900 2) ∧
    txBytes (build_timeout_tx ⟨9, 1⟩ [6] 900 2 50) =
      txBytes (build_timeout_tx ⟨9, 1⟩ [6] 900 2 50) :=
  claim_C6 [⟨1, 0, 0, 3000⟩] [⟨1, 0, 0, 3000⟩] [2] [2] [3] [3] [7] [7] [5] [5] [6] [6]
    1000 1000 2 2 50 50 900 900 ⟨9, 0⟩ ⟨9, 0⟩ ⟨9, 1⟩ ⟨9, 1⟩
    rfl rfl rfl rfl rfl rfl rfl rfl rfl rfl rfl rfl

/-- Claim C7: with a hop step exceeding `SAFETY_MARGIN`, the Taker's timelock
schedule is strictly decreasing along the route with a gap above the safety
margin on every hop, the outer hop (index 0) carries the longest timelock,
and the Maker's signing check accepts exactly these adjacent pairs. -/
theorem claim_C7 (base step n i : Nat) (hstep : SAFETY_MARGIN < step) (hi : i < n) :
    timelockSchedule base step n (i + 1) + SAFETY_MARGIN <
      timelockSchedule base step n i ∧
    maker_timelock_check (timelockSchedule base step n i)
      (timelockSchedule base step n (i + 1)) = true ∧
    timelockSchedule base step n i ≤ timelockSchedule base step n 0 := by
  have hk : n - i = (n - (i + 1)) + 1 := by omega
  have hexp : timelockSchedule base step n i =
      base + (n - (i + 1)) * step + step := by
    unfold timelockSchedule
    rw [hk, Nat.succ_mul, Nat.add_assoc]
  have hlt : timelockSchedule base step n (i + 1) + SAFETY_MARGIN <
      timelockSchedule base step n i := by
    rw [hexp]
    unfold timelockSchedule SAFETY_MARGIN
    unfold SAFETY_MARGIN at hstep
    omega
  refine ⟨hlt, ?_, ?_⟩
  · unfold maker_timelock_check
    simp only [decide_eq_true_eq]
    omega
  · unfold timelockSchedule
    have hmul : (n - i) * step ≤ (n - 0) * step :=
      Nat.mul_le_mul_right step (by omega)
    omega

/-- Witness for C7: a 3-hop schedule with base 100 and step 21 at the outer
hop. -/
theorem claim_C7_witness :
    timelockSchedule 100 21 3 1 + SAFETY_MARGIN < timelockSchedule 100 21 3 0 ∧
    maker_timelock_check (timelockSchedule 100 21 3 0) (timelockSchedule 100 21 3 1) = true ∧
    timelockSchedule 100 21 3 0 ≤ timelockSchedule 100 21 3 0 :=
  claim_C7 100 21 3 0 (by decide) (by decide)

/-- Claim C8: a funding build fails with `InsufficientFunds` exactly when the
wallet cannot produce the requested amount plus the fee at the requested fee
rate, and a successful build selects inputs worth at least the amount plus
the fee. -/
theorem claim_C8 (us : List Utxo) (amount feeRate : Nat) :
    (create_funding_txes us amount feeRate =
        Except.error WalletError.InsufficientFunds ↔
      sumAmounts us < amount + txFee feeRate) ∧
    (∀ sel, create_funding_txes us amount feeRate = Except.ok sel →
      amount + txFee feeRate ≤ sumAmounts sel) := by
  constructor
  · constructor
    · intro herr
      by_contra hge
      push_neg at hge
      have hsome := coin_select_complete hge
      cases hsel : coin_select us (amount + txFee feeRate) with
      | none => rw [hsel] at hsome; simp at hsome
      | some sel => simp [create_funding_txes, hsel] at herr
    · intro hlt
      cases hsel : coin_select us (amount + txFee feeRate) with
      | none => simp [create_funding_txes, hsel]
      | some sel =>
        exfalso
        obtain ⟨hc1, hc2, -, -⟩ := coin_select_sound hsel
        omega
  · intro sel hok
    cases hsel : coin_select us (amount + txFee feeRate) with
    | none => simp [create_funding_txes, hsel] at hok
    | some sel2 =>
      simp only [create_funding_txes, hsel, Except.ok.injEq] at hok
      subst hok
      exact (coin_select_sound hsel).1

/-- Witness for C8: on the grouping-test wallet, the successful 50M-sat build
selects at least the amount plus the fee. -/
theorem claim_C8_witness :
    50000000 + txFee MIN_FEE_RATE ≤ sumAmounts groupingSelection :=
  (claim_C8 groupingTestWallet 50000000 MIN_FEE_RATE).2 groupingSelection (by rfl)

/-- Claim C9: in a two-Maker swap where one Maker closes at
`ContractSigsForRecvr` and the other is Normal, `send_coinswap` completes
without propagating an error, recording only the failing Maker as bad. -/
theorem claim_C9 (params : SwapParams) (a1 a2 f1 f2 t1 t2 : Nat) :
    (send_coinswap params
        [⟨a1, MakerBehavior.CloseAtContractSigsForRecvr, f1, t1⟩,
          ⟨a2, MakerBehavior.Normal, f2, t2⟩]).result = Except.ok () ∧
    (send_coinswap params
        [⟨a1, MakerBehavior.CloseAtContractSigsForRecvr, f1, t1⟩,
          ⟨a2, MakerBehavior.Normal, f2, t2⟩]).bad_makers = [a1] ∧
    (send_coinswap params
        [⟨a2, MakerBehavior.Normal, f2, t2⟩,
          ⟨a1, MakerBehavior.CloseAtContractSigsForRecvr, f1, t1⟩]).result =
      Except.ok () := by
  exact ⟨rfl, rfl, rfl⟩

/-- Claim C10: any UTXO set returned by a successful `coin_select` for amount
`A` at `MIN_FEE_RATE` lets `spend_from_wallet` pay a single `A`-sat
destination, producing a transaction valid for broadcast. -/
theorem claim_C10 (us : List Utxo) (amount destAddr changeAddr : Nat) (sel : List Utxo)
    (hsel : coin_select us (amount + txFee MIN_FEE_RATE) = some sel) :
    ∃ tx, spend_from_wallet MIN_FEE_RATE [(destAddr, amount)] changeAddr sel =
        Except.ok tx ∧ txValidForBroadcast us tx := by
  obtain ⟨hc1, hc2, hmem, -⟩ := coin_select_sound hsel
  have hfee : 0 < txFee MIN_FEE_RATE := by decide
  have hne : sel ≠ [] := by
    intro hempty
    subst hempty
    simp [sumAmounts] at hc1
    omega
  refine ⟨{ version := 2
            inputs := sel.map (fun u => ⟨⟨u.txid, u.vout⟩, 4294967295, []⟩)
            outputs :=
              [⟨[118, destAddr % 256], amount⟩] ++
                (if sumAmounts sel - amount - txFee MIN_FEE_RATE = 0 then []
                 else [⟨[118, changeAddr % 256],
                        sumAmounts sel - amount - txFee MIN_FEE_RATE⟩])
            lockTime := 0 }, ?_, ?_, ?_, ?_⟩
  · simp only [spend_from_wallet, List.map_cons, List.map_nil, List.sum_cons,
      List.sum_nil, Nat.add_zero]
    rw [if_neg (by omega)]
  · intro hmapnil
    exact hne (List.map_eq_nil_iff.mp hmapnil)
  · intro i hi
    obtain ⟨u, hu, rfl⟩ := List.mem_map.mp hi
    exact ⟨u, hmem u hu, rfl, rfl⟩
  · by_cases hch : sumAmounts sel - amount - txFee MIN_FEE_RATE = 0
    · simp [outputsTotal, hch]
      omega
    · simp [outputsTotal, hch]
      omega

/-- Witness for C10: the grouping-test selection pays a 50M-sat destination
with a broadcast-valid transaction. -/
theorem claim_C10_witness :
    ∃ tx, spend_from_wallet MIN_FEE_RATE [(99, 50000000)] 98 groupingSelection =
        Except.ok tx ∧ txValidForBroadcast groupingTestWallet tx :=
  claim_C10 groupingTestWallet 50000000 99 98 groupingSelection (by decide)

end Coinswap
